import Mathlib

set_option autoImplicit false

/-!
Shallow embedding of the detection-to-overlay pipeline of the object-detection
webapp (`app.py`, with the variant matcher of `test.py`).

The pipeline's pure core is embedded as executable Lean functions:
* `pyLower` / `pyCapitalize` model Python's `str.lower()` / `str.capitalize()`
  on basic-latin letters (the only characters that occur in detector class
  names and the catalog names the code compares them with).
* `App.get_product_info` models `app.py:get_product_info` (a dict-comprehension
  lookup keyed by lower-cased product name: a later catalog entry with the same
  lower-cased name overwrites an earlier one).
* `Test.get_product_info` models `test.py:get_product_info` (a per-detection
  linear scan over the catalog with `break` at the first match).
* `buildGroups` models the `displayed_products` grouping loop of
  `overlay_product_info`, `pyMaxBy` Python's `max(..., key=...)`,
  `computeTextPos` the label-placement arithmetic, and
  `overlay_product_info` the whole render pass with the random colour source
  and the font's text-measurement function as explicit parameters.

Prices are Python floats in the source; the pipeline never computes with them
(it only interpolates them into the label string), so they are carried here as
their decimal rendering (a `String`). Confidence scores are carried as `ℚ`;
the pipeline never inspects them.
-/

namespace ObjDet

/-- Python `str.lower()` on basic-latin letters: lower-case every character.
`Char.toLower` is exactly the ASCII case map the source relies on for YOLO
class names and catalog names. -/
def pyLower (s : String) : String := ⟨s.data.map Char.toLower⟩

/-- Python `str.capitalize()` on basic-latin letters: upper-case the first
character, lower-case the rest. -/
def pyCapitalize (s : String) : String :=
  match s.data with
  | [] => ⟨[]⟩
  | c :: rest => ⟨Char.toUpper c :: rest.map Char.toLower⟩

/-- An axis-aligned bounding box `(x_min, y_min, x_max, y_max)`, integer
coordinates (the source truncates the detector's boxes to `int`). -/
abbrev BBox := Int × Int × Int × Int

/-- One detector output record (`perform_object_detection` item):
`{'class_name': ..., 'bbox': ..., 'score': ...}`. -/
structure Detection where
  class_name : String
  bbox : BBox
  score : ℚ
  deriving DecidableEq

/-- One catalog entry from the `products` mapping: `name`, `price`
(decimal rendering of the stored float), `in_stock`. -/
structure Product where
  name : String
  price : String
  in_stock : Bool
  deriving DecidableEq

/-- One element of the `product_infos` list both matchers produce. -/
structure ProductInfo where
  class_name : String
  bbox : BBox
  price : String
  in_stock : Bool
  deriving DecidableEq

/-- Assignment `d[k] = v` on a Python dict modelled as an association list
with pairwise-distinct keys: replace in place if the key is present,
append otherwise. -/
def dictInsert : List (String × Product) → String → Product → List (String × Product)
  | [], k, v => [(k, v)]
  | kv :: rest, k, v => if kv.1 = k then (k, v) :: rest else kv :: dictInsert rest k v

/-- Membership test plus subscript read `d[k]` on the dict model. -/
def dictFind? : List (String × Product) → String → Option Product
  | [], _ => none
  | kv :: rest, k => if kv.1 = k then some kv.2 else dictFind? rest k

/-- The last catalog entry (in `products.values()` order) whose lower-cased
name is `k` — the entry Python's dict comprehension leaves under key `k`. -/
def findLast (ps : List Product) (k : String) : Option Product :=
  ps.reverse.find? (fun p => pyLower p.name == k)

namespace App

/-- The dict comprehension
`{product['name'].lower(): product for product in products.values()}` of
`app.py:get_product_info`: successive dict assignments, so a later product
whose lower-cased name collides with an earlier one overwrites it. -/
def product_lookup (products : List Product) : List (String × Product) :=
  products.foldl (fun d product => dictInsert d (pyLower product.name) product) []

/-- Model of `app.py:get_product_info`: for each detection, lower-case its
class name, test membership in the lookup dict, and on a hit emit a
`product_info` whose `class_name` field is the lower-cased name. Misses are
skipped. -/
def get_product_info (products : List Product) (detections : List Detection) :
    List ProductInfo :=
  let lookup := product_lookup products
  detections.filterMap (fun detection =>
    let class_name := pyLower detection.class_name
    match dictFind? lookup class_name with
    | some product => some ⟨class_name, detection.bbox, product.price, product.in_stock⟩
    | none => none)

end App

namespace Test

/-- Model of `test.py:get_product_info`: for each detection, scan
`products.values()` in order and `break` at the first product whose
lower-cased name equals the detection's lower-cased class name; the emitted
`class_name` field keeps the detection's original casing. -/
def get_product_info (products : List Product) (detections : List Detection) :
    List ProductInfo :=
  detections.filterMap (fun detection =>
    match products.find? (fun product =>
        pyLower product.name == pyLower detection.class_name) with
    | some product =>
        some ⟨detection.class_name, detection.bbox, product.price, product.in_stock⟩
    | none => none)

end Test

/-- The membership test `class_name in product_lookup` of
`app.py:get_product_info`: does the detection's lower-cased class name have a
catalog entry? -/
def isMatched (ps : List Product) (d : Detection) : Bool :=
  (dictFind? (App.product_lookup ps) (pyLower d.class_name)).isSome

/-- The lower-cased class names of the matched detections, in input order
(with repetitions). -/
def matchedKeys (ps : List Product) (dets : List Detection) : List String :=
  (dets.filter (isMatched ps)).map (fun d => pyLower d.class_name)

/-- The conversion `'Yes' if info['in_stock'] else 'No'` performed when a
product info enters the `displayed_products` dict. -/
def stockStr (b : Bool) : String := if b then "Yes" else "No"

/-- One entry of the `displayed_products` dict of `overlay_product_info`:
the lower-cased class name it is keyed by, the price and Yes/No stock string
stored when the key was first seen, and every bbox collected for the key, in
input order. -/
structure MatchedGroup where
  entity_key : String
  price : String
  in_stock : String
  boxes : List BBox
  deriving DecidableEq

/-- One iteration of the `displayed_products` loop: if the key is present,
append the bbox to its `bboxes` list (an in-place dict update); otherwise
insert a fresh entry (Python dict insertion order: at the end) whose `bboxes`
starts empty and immediately receives this bbox. -/
def addInfo (groups : List MatchedGroup) (info : ProductInfo) : List MatchedGroup :=
  let key := pyLower info.class_name
  if groups.any (fun g => g.entity_key == key) then
    groups.map (fun g =>
      if g.entity_key = key then { g with boxes := g.boxes ++ [info.bbox] } else g)
  else
    groups ++ [⟨key, info.price, stockStr info.in_stock, [info.bbox]⟩]

/-- The whole `displayed_products` loop of `overlay_product_info`. -/
def buildGroups (product_infos : List ProductInfo) : List MatchedGroup :=
  product_infos.foldl addInfo []

/-- Area `(bbox[2]-bbox[0])*(bbox[3]-bbox[1])` used as the `key` of the
`max` call that picks `largest_bbox`. -/
def area : BBox → Int
  | (xmin, ymin, xmax, ymax) => (xmax - xmin) * (ymax - ymin)

/-- Python `max(iterable, key=f)` on a non-empty list `best :: rest`: scan
left to right, keeping the current maximum and replacing it only when a
strictly larger key appears — so ties keep the earliest element. -/
def pyMaxBy (f : BBox → Int) (best : BBox) : List BBox → BBox
  | [] => best
  | b :: rest => pyMaxBy f (if f b > f best then b else best) rest

/-- The label-placement arithmetic of `overlay_product_info` (the
`text_x`/`text_y` computation with its two boundary corrections), as a
function of the image size, the anchor box, and the measured text size. -/
def computeTextPos (width height : Int) (anchor : BBox)
    (text_width text_height : Int) : Int × Int :=
  match anchor with
  | (xmin, ymin, _, ymax) =>
    let text_x := xmin
    let text_y := ymin - text_height - 5
    let text_x := if text_x + text_width > width then width - text_width - 5 else text_x
    let text_y :=
      if text_y < 0 then
        let below := ymax + 5
        if below + text_height > height then height - text_height - 5 else below
      else text_y
    (text_x, text_y)

/-- The f-string `f"{class_name.capitalize()}: ${price}, In Stock: {in_stock}"`
(where `in_stock` is already the Yes/No string stored in the group). -/
def groupLabel (g : MatchedGroup) : String :=
  pyCapitalize g.entity_key ++ ": $" ++ g.price ++ ", In Stock: " ++ g.in_stock

/-- An RGB triple, each component in 0..255 in the source. -/
abbrev Color := Nat × Nat × Nat

/-- The `object_colors` loop: one colour per distinct lower-cased class name,
in first-seen order. The random source is a parameter: `colors k` is the
k-th triple produced by `random.choices(range(256), k=3)`. -/
def assignColors (colors : Nat → Color) (product_infos : List ProductInfo) :
    List (String × Color) :=
  (product_infos.foldl
    (fun acc info =>
      let key := pyLower info.class_name
      if acc.1.any (fun kc => kc.1 == key) then acc
      else (acc.1 ++ [(key, colors acc.2)], acc.2 + 1))
    ([], 0)).1

/-- Subscript read `object_colors[class_name]`. Every key read by the source
was inserted by the colour loop, so the default is unreachable. -/
def colorFind (object_colors : List (String × Color)) (k : String) : Color :=
  ((object_colors.find? (fun kc => kc.1 == k)).map (·.2)).getD (0, 0, 0)

/-- Model of `os.path.basename` for forward-slash paths. -/
def basename (path : String) : String := (path.splitOn "/").getLastD ""

/-- One label drawn by the final loop of `overlay_product_info`: its text,
the `(text_x, text_y)` origin passed to `draw.text`, and its colour. -/
structure RenderedLabel where
  text : String
  pos : Int × Int
  color : Color
  deriving DecidableEq

/-- Everything `overlay_product_info` draws and the path it saves to:
the outlined rectangles with their colours (in drawing order), the labels,
and the output path `uploads/output_<basename>`. -/
structure RenderOutput where
  drawn_boxes : List (BBox × Color)
  labels : List RenderedLabel
  out_path : String
  deriving DecidableEq

/-- Model of `overlay_product_info`, with the random colour source and the
font's text-measurement function (`draw.textbbox` width/height for a given
string) as explicit parameters, and the decoded image's width/height as
arguments.
The `[]` branch of the anchor `match` is unreachable: `buildGroups` only
produces groups with non-empty `boxes` (Python's `max` would raise on an
empty sequence). -/
def overlay_product_info (colors : Nat → Color) (measure : String → Int × Int)
    (width height : Int) (image_path : String)
    (product_infos : List ProductInfo) : RenderOutput :=
  let object_colors := assignColors colors product_infos
  let drawn_boxes := product_infos.map (fun info =>
    (info.bbox, colorFind object_colors (pyLower info.class_name)))
  let displayed_products := buildGroups product_infos
  let labels := displayed_products.filterMap (fun g =>
    match g.boxes with
    | [] => none
    | b :: rest =>
      let largest_bbox := pyMaxBy area b rest
      let label := groupLabel g
      let measured := measure label
      let pos := computeTextPos width height largest_bbox measured.1 measured.2
      some ⟨label, pos, colorFind object_colors g.entity_key⟩)
  { drawn_boxes := drawn_boxes, labels := labels,
    out_path := "uploads/" ++ ("output_" ++ basename image_path) }

/-- Everything in a render result except the colour values: the drawn box
coordinates, the label texts with their positions, and the output path. -/
def stripRender (r : RenderOutput) :
    List BBox × List (String × (Int × Int)) × String :=
  (r.drawn_boxes.map Prod.fst, r.labels.map (fun l => (l.text, l.pos)), r.out_path)

/-- Model of `process_image`: the detector adapter's result is passed in
(`none` models `perform_object_detection` having caught an internal detector
error and returned `None`). On `none` the function returns `None` at once —
neither the matcher nor the renderer contributes to the result and no output
path is produced; otherwise it matches and renders. -/
def process_image (colors : Nat → Color) (measure : String → Int × Int)
    (width height : Int) (products : List Product)
    (detections : Option (List Detection)) (image_path : String) :
    Option RenderOutput :=
  match detections with
  | none => none
  | some dets =>
      some (overlay_product_info colors measure width height image_path
        (App.get_product_info products dets))

/-! ### Dictionary-lookup semantics -/

theorem dictFind?_dictInsert (d : List (String × Product)) (k' k : String) (v : Product) :
    dictFind? (dictInsert d k' v) k = if k = k' then some v else dictFind? d k := by
  induction d with
  | nil =>
      by_cases h : k = k'
      · simp [dictInsert, dictFind?, h]
      · simp [dictInsert, dictFind?, h, Ne.symm h]
  | cons kv rest ih =>
      by_cases h1 : kv.1 = k'
      · by_cases h2 : k = k'
        · simp [dictInsert, dictFind?, h1, h2]
        · simp [dictInsert, dictFind?, h1, h2, Ne.symm h2]
      · by_cases h2 : kv.1 = k
        · have h3 : ¬ k = k' := fun h => h1 (h2.trans h)
          simp [dictInsert, dictFind?, h1, h2, h3]
        · simp [dictInsert, dictFind?, h1, h2, ih]

theorem findLast_cons (p : Product) (rest : List Product) (k : String) :
    findLast (p :: rest) k
      = (findLast rest k).or (if pyLower p.name = k then some p else none) := by
  simp only [findLast, List.reverse_cons, List.find?_append]
  congr 1
  by_cases h : pyLower p.name = k
  · simp [List.find?, h]
  · have hb : (pyLower p.name == k) = false := beq_eq_false_iff_ne.mpr h
    simp [List.find?, hb, h]

theorem dictFind?_foldl (ps : List Product) (acc : List (String × Product)) (k : String) :
    dictFind? (ps.foldl (fun d product => dictInsert d (pyLower product.name) product) acc) k
      = (findLast ps k).or (dictFind? acc k) := by
  induction ps generalizing acc with
  | nil => simp [findLast]
  | cons p rest ih =>
      rw [List.foldl_cons, ih, findLast_cons, dictFind?_dictInsert]
      cases hr : findLast rest k with
      | some q => simp
      | none =>
          by_cases h : pyLower p.name = k
          · simp [h]
          · simp [h, Ne.symm h]

theorem dictFind?_product_lookup (ps : List Product) (k : String) :
    dictFind? (App.product_lookup ps) k = findLast ps k := by
  rw [App.product_lookup, dictFind?_foldl]
  simp [dictFind?]

theorem findLast_eq_none_iff (ps : List Product) (k : String) :
    findLast ps k = none ↔ ∀ p ∈ ps, pyLower p.name ≠ k := by
  simp [findLast, List.find?_eq_none]

theorem findLast_eq_some (ps : List Product) (k : String) (q : Product)
    (h : findLast ps k = some q) : q ∈ ps ∧ pyLower q.name = k := by
  refine ⟨List.mem_reverse.mp (List.mem_of_find?_eq_some h), ?_⟩
  have := List.find?_some h
  simpa using this

/-! ### `pyLower` is idempotent (lower-casing an already lower-cased name
changes nothing), needed because the grouping loop lower-cases the matcher's
already lower-cased `class_name` a second time. -/

theorem char_toNat_ofNat_valid {n : Nat} (h : n.isValidChar) :
    (Char.ofNat n).toNat = n := by
  simp only [Char.ofNat, dif_pos h]
  rfl

theorem char_toLower_toLower (c : Char) : c.toLower.toLower = c.toLower := by
  unfold Char.toLower
  by_cases h : c.toNat ≥ 65 ∧ c.toNat ≤ 90
  · rw [if_pos h]
    have hv : (c.toNat + 32).isValidChar := Or.inl (by omega)
    rw [char_toNat_ofNat_valid hv, if_neg (by omega)]
  · rw [if_neg h, if_neg h]

theorem pyLower_idem (s : String) : pyLower (pyLower s) = pyLower s := by
  cases s with
  | mk data =>
      simp only [pyLower, List.map_map]
      congr 1
      exact List.map_congr_left (fun c _ => char_toLower_toLower c)

/-! ### Matcher lemmas -/

theorem get_product_info_class_names (ps : List Product) (dets : List Detection) :
    (App.get_product_info ps dets).map (fun i => pyLower i.class_name)
      = matchedKeys ps dets := by
  induction dets with
  | nil => rfl
  | cons d rest ih =>
      simp only [App.get_product_info, matchedKeys] at ih ⊢
      rw [List.filterMap_cons, List.filter_cons]
      cases hp : dictFind? (App.product_lookup ps) (pyLower d.class_name) with
      | none => simp [isMatched, hp, ih]
      | some p => simp [isMatched, hp, ih, pyLower_idem]

theorem mem_get_product_info (ps : List Product) (dets : List Detection)
    (info : ProductInfo) (h : info ∈ App.get_product_info ps dets) :
    ∃ d ∈ dets, info.class_name = pyLower d.class_name ∧
      ∃ p, dictFind? (App.product_lookup ps) (pyLower d.class_name) = some p := by
  simp only [App.get_product_info, List.mem_filterMap] at h
  obtain ⟨d, hd, hf⟩ := h
  cases hp : dictFind? (App.product_lookup ps) (pyLower d.class_name) with
  | none => rw [hp] at hf; exact absurd hf (by simp)
  | some p =>
      rw [hp] at hf
      refine ⟨d, hd, ?_, p, hp⟩
      obtain rfl : (⟨pyLower d.class_name, d.bbox, p.price, p.in_stock⟩ : ProductInfo)
          = info := by injection hf
      rfl

/-! ### Grouping lemmas -/

theorem addInfo_keys (gs : List MatchedGroup) (info : ProductInfo) :
    (addInfo gs info).map MatchedGroup.entity_key
      = if pyLower info.class_name ∈ gs.map MatchedGroup.entity_key
        then gs.map MatchedGroup.entity_key
        else gs.map MatchedGroup.entity_key ++ [pyLower info.class_name] := by
  by_cases hm : pyLower info.class_name ∈ gs.map MatchedGroup.entity_key
  · rw [if_pos hm]
    have hany : gs.any (fun g => g.entity_key == pyLower info.class_name) = true := by
      simp only [List.any_eq_true, beq_iff_eq]
      obtain ⟨g, hg, hk⟩ := List.mem_map.mp hm
      exact ⟨g, hg, hk⟩
    simp only [addInfo, hany, if_true, List.map_map]
    apply List.map_congr_left
    intro g _
    by_cases h : g.entity_key = pyLower info.class_name <;> simp [h]
  · rw [if_neg hm]
    have hany : gs.any (fun g => g.entity_key == pyLower info.class_name) = false := by
      rw [List.any_eq_false]
      intro g hg
      simp only [beq_iff_eq]
      intro hk
      exact hm (List.mem_map.mpr ⟨g, hg, hk⟩)
    simp [addInfo, hany]

theorem addInfo_boxes_ne_nil (gs : List MatchedGroup) (info : ProductInfo)
    (h : ∀ g ∈ gs, g.boxes ≠ []) : ∀ g ∈ addInfo gs info, g.boxes ≠ [] := by
  intro g hg
  simp only [addInfo] at hg
  by_cases hany : gs.any (fun g => g.entity_key == pyLower info.class_name) = true
  · rw [if_pos hany] at hg
    obtain ⟨g0, hg0, rfl⟩ := List.mem_map.mp hg
    by_cases h0 : g0.entity_key = pyLower info.class_name
    · simp only [h0, if_true]
      simp
    · simp only [h0, if_false]
      exact h g0 hg0
  · rw [if_neg hany] at hg
    rcases List.mem_append.mp hg with hold | hnew
    · exact h g hold
    · obtain rfl : g = (⟨pyLower info.class_name, info.price, stockStr info.in_stock,
          [info.bbox]⟩ : MatchedGroup) := by simpa using hnew
      simp

theorem foldl_addInfo_boxes_ne_nil (infos : List ProductInfo)
    (acc : List MatchedGroup) (h : ∀ g ∈ acc, g.boxes ≠ []) :
    ∀ g ∈ infos.foldl addInfo acc, g.boxes ≠ [] := by
  induction infos generalizing acc with
  | nil => exact h
  | cons info rest ih =>
      rw [List.foldl_cons]
      exact ih _ (addInfo_boxes_ne_nil _ _ h)

theorem foldl_addInfo_keys_mem (infos : List ProductInfo)
    (acc : List MatchedGroup) (k : String) :
    (k ∈ (infos.foldl addInfo acc).map MatchedGroup.entity_key)
      ↔ k ∈ acc.map MatchedGroup.entity_key
        ∨ ∃ i ∈ infos, k = pyLower i.class_name := by
  induction infos generalizing acc with
  | nil => simp
  | cons info rest ih =>
      rw [List.foldl_cons, ih, addInfo_keys]
      by_cases hm : pyLower info.class_name ∈ acc.map MatchedGroup.entity_key
      · rw [if_pos hm]
        have hC : k = pyLower info.class_name → k ∈ acc.map MatchedGroup.entity_key :=
          fun h => h ▸ hm
        constructor
        · rintro (h | ⟨i, hi, hk⟩)
          · exact Or.inl h
          · exact Or.inr ⟨i, List.mem_cons_of_mem _ hi, hk⟩
        · rintro (h | ⟨i, hi, hk⟩)
          · exact Or.inl h
          · rcases List.mem_cons.mp hi with rfl | hi'
            · exact Or.inl (hC hk)
            · exact Or.inr ⟨i, hi', hk⟩
      · rw [if_neg hm]
        simp only [List.mem_append, List.mem_singleton]
        constructor
        · rintro ((h | h) | ⟨i, hi, hk⟩)
          · exact Or.inl h
          · exact Or.inr ⟨info, List.mem_cons_self _ _, h⟩
          · exact Or.inr ⟨i, List.mem_cons_of_mem _ hi, hk⟩
        · rintro (h | ⟨i, hi, hk⟩)
          · exact Or.inl (Or.inl h)
          · rcases List.mem_cons.mp hi with rfl | hi'
            · exact Or.inl (Or.inr hk)
            · exact Or.inr ⟨i, hi', hk⟩

theorem foldl_addInfo_keys_nodup (infos : List ProductInfo)
    (acc : List MatchedGroup) (h : (acc.map MatchedGroup.entity_key).Nodup) :
    ((infos.foldl addInfo acc).map MatchedGroup.entity_key).Nodup := by
  induction infos generalizing acc with
  | nil => exact h
  | cons info rest ih =>
      rw [List.foldl_cons]
      apply ih
      rw [addInfo_keys]
      by_cases hm : pyLower info.class_name ∈ acc.map MatchedGroup.entity_key
      · rwa [if_pos hm]
      · rw [if_neg hm]
        simp [List.nodup_append, h, hm]

/-! ### Claim theorems -/

/-- Claim C1: for every catalog and detection list, a detection whose lower-cased
`class_name` equals no catalog entry's lower-cased `name` produces no
`product_info` entry in `get_product_info`, and no `MatchedGroup` of the
grouping pass carries its key: the detection is silently dropped. -/
theorem unmatched_detection_never_annotated (ps : List Product)
    (dets : List Detection) (d : Detection) (hd : d ∈ dets)
    (hun : ∀ p ∈ ps, pyLower p.name ≠ pyLower d.class_name) :
    (∀ info ∈ App.get_product_info ps dets, info.class_name ≠ pyLower d.class_name)
    ∧ ∀ g ∈ buildGroups (App.get_product_info ps dets),
        g.entity_key ≠ pyLower d.class_name := by
  have hnone : dictFind? (App.product_lookup ps) (pyLower d.class_name) = none := by
    rw [dictFind?_product_lookup, findLast_eq_none_iff]
    exact hun
  have hinfo : ∀ info ∈ App.get_product_info ps dets,
      info.class_name ≠ pyLower d.class_name := by
    intro info hi heq
    obtain ⟨d', _, hcn, p, hp⟩ := mem_get_product_info ps dets info hi
    rw [hcn] at heq
    rw [heq, hnone] at hp
    exact Option.noConfusion hp
  refine ⟨hinfo, ?_⟩
  intro g hg heq
  have hk : g.entity_key
      ∈ (buildGroups (App.get_product_info ps dets)).map MatchedGroup.entity_key :=
    List.mem_map.mpr ⟨g, hg, rfl⟩
  rw [buildGroups, foldl_addInfo_keys_mem] at hk
  rcases hk with h | ⟨i, hi, hkey⟩
  · simp at h
  · obtain ⟨d', _, hcn, p, hp⟩ := mem_get_product_info ps dets i hi
    rw [hcn, pyLower_idem] at hkey
    rw [heq] at hkey
    rw [← hkey, hnone] at hp
    exact Option.noConfusion hp

/-- Witness for C1: a concrete catalog knowing only "cat" and a concrete
"dog" detection; the theorem applies and its hypotheses hold by computation. -/
theorem unmatched_detection_never_annotated_witness :
    (∀ p ∈ ([⟨"cat", "9.99", true⟩] : List Product),
        pyLower p.name ≠ pyLower "dog")
    ∧ ∀ g ∈ buildGroups (App.get_product_info [⟨"cat", "9.99", true⟩]
          [⟨"dog", (60, 60, 80, 80), (4 : ℚ)/5⟩]),
        g.entity_key ≠ pyLower "dog" :=
  ⟨by decide,
   (unmatched_detection_never_annotated [⟨"cat", "9.99", true⟩]
      [⟨"dog", (60, 60, 80, 80), (4 : ℚ)/5⟩] ⟨"dog", (60, 60, 80, 80), (4 : ℚ)/5⟩
      (List.mem_cons_self _ _) (by decide)).2⟩

/-- Claim C2: the groups built for one image are keyed by pairwise-distinct
entity keys, the keys are exactly the lower-cased class names of the matched
detections, there are exactly as many groups as distinct such names, and
every group's `boxes` list is non-empty. -/
theorem matched_groups_unique_nonempty (ps : List Product) (dets : List Detection) :
    ((buildGroups (App.get_product_info ps dets)).map MatchedGroup.entity_key).Nodup
    ∧ (∀ k, k ∈ (buildGroups (App.get_product_info ps dets)).map MatchedGroup.entity_key
          ↔ k ∈ matchedKeys ps dets)
    ∧ (buildGroups (App.get_product_info ps dets)).length
        = (matchedKeys ps dets).dedup.length
    ∧ ∀ g ∈ buildGroups (App.get_product_info ps dets), g.boxes ≠ [] := by
  set infos := App.get_product_info ps dets with hinfos
  have hkeys : ∀ k, k ∈ (buildGroups infos).map MatchedGroup.entity_key
      ↔ k ∈ matchedKeys ps dets := by
    intro k
    rw [buildGroups, foldl_addInfo_keys_mem, ← get_product_info_class_names ps dets]
    constructor
    · rintro (h | ⟨i, hi, rfl⟩)
      · simp at h
      · exact List.mem_map.mpr ⟨i, hi, rfl⟩
    · intro h
      obtain ⟨i, hi, rfl⟩ := List.mem_map.mp h
      exact Or.inr ⟨i, hi, rfl⟩
  have hnd : ((buildGroups infos).map MatchedGroup.entity_key).Nodup :=
    foldl_addInfo_keys_nodup infos [] (by simp)
  refine ⟨hnd, hkeys, ?_, foldl_addInfo_boxes_ne_nil infos [] (by simp)⟩
  have hfs : ((buildGroups infos).map MatchedGroup.entity_key).toFinset
      = (matchedKeys ps dets).toFinset := by
    apply Finset.ext
    intro k
    rw [List.mem_toFinset, List.mem_toFinset]
    exact hkeys k
  calc (buildGroups infos).length
      = ((buildGroups infos).map MatchedGroup.entity_key).length := by simp
    _ = ((buildGroups infos).map MatchedGroup.entity_key).toFinset.card :=
        (List.toFinset_card_of_nodup hnd).symm
    _ = (matchedKeys ps dets).toFinset.card := by rw [hfs]
    _ = (matchedKeys ps dets).dedup.length := List.card_toFinset _

/-! ### Anchor-selection lemmas (`max(bboxes, key=area)`) -/

theorem pyMaxBy_mem (f : BBox → Int) (b : BBox) (l : List BBox) :
    pyMaxBy f b l ∈ b :: l := by
  induction l generalizing b with
  | nil => exact List.mem_cons_self _ _
  | cons c rest ih =>
      rw [pyMaxBy]
      rcases List.mem_cons.mp (ih (if f c > f b then c else b)) with h | h
      · rw [h]
        by_cases hc : f c > f b
        · rw [if_pos hc]
          exact List.mem_cons_of_mem _ (List.mem_cons_self _ _)
        · rw [if_neg hc]
          exact List.mem_cons_self _ _
      · exact List.mem_cons_of_mem _ (List.mem_cons_of_mem _ h)

theorem pyMaxBy_le (f : BBox → Int) (b : BBox) (l : List BBox) :
    ∀ x ∈ b :: l, f x ≤ f (pyMaxBy f b l) := by
  induction l generalizing b with
  | nil =>
      intro x hx
      rcases List.mem_cons.mp hx with rfl | h
      · exact le_refl _
      · simp at h
  | cons c rest ih =>
      intro x hx
      rw [pyMaxBy]
      have hb : f b ≤ f (if f c > f b then c else b) := by
        by_cases hc : f c > f b
        · rw [if_pos hc]; exact le_of_lt hc
        · rw [if_neg hc]
      have hc2 : f c ≤ f (if f c > f b then c else b) := by
        by_cases hc : f c > f b
        · rw [if_pos hc]
        · rw [if_neg hc]; exact not_lt.mp hc
      have hmax := ih (if f c > f b then c else b)
      rcases List.mem_cons.mp hx with rfl | hx'
      · exact le_trans hb (hmax _ (List.mem_cons_self _ _))
      · rcases List.mem_cons.mp hx' with rfl | hx''
        · exact le_trans hc2 (hmax _ (List.mem_cons_self _ _))
        · exact hmax x (List.mem_cons_of_mem _ hx'')

theorem pyMaxBy_first (f : BBox → Int) (b : BBox) (l : List BBox) :
    ∃ l1 l2, b :: l = l1 ++ pyMaxBy f b l :: l2
      ∧ ∀ x ∈ l1, f x < f (pyMaxBy f b l) := by
  induction l generalizing b with
  | nil => exact ⟨[], [], by simp [pyMaxBy], by simp⟩
  | cons c rest ih =>
      rw [pyMaxBy]
      by_cases hc : f c > f b
      · rw [if_pos hc]
        obtain ⟨l1, l2, hsplit, hlt⟩ := ih c
        refine ⟨b :: l1, l2, ?_, ?_⟩
        · rw [List.cons_append, ← hsplit]
        · intro x hx
          rcases List.mem_cons.mp hx with rfl | hx'
          · exact lt_of_lt_of_le hc (pyMaxBy_le f c rest c (List.mem_cons_self _ _))
          · exact hlt x hx'
      · rw [if_neg hc]
        obtain ⟨l1, l2, hsplit, hlt⟩ := ih b
        cases l1 with
        | nil =>
            rw [List.nil_append] at hsplit
            injection hsplit with h1 h2
            refine ⟨[], c :: rest, ?_, by simp⟩
            rw [List.nil_append, ← h1]
        | cons y l1' =>
            rw [List.cons_append] at hsplit
            injection hsplit with h1 h2
            subst h1
            have hblt : f b < f (pyMaxBy f b rest) := hlt b (List.mem_cons_self _ _)
            refine ⟨b :: c :: l1', l2, ?_, ?_⟩
            · conv_lhs => rw [h2]
              simp [List.cons_append]
            · intro x hx
              rcases List.mem_cons.mp hx with rfl | hx'
              · exact hblt
              · rcases List.mem_cons.mp hx' with rfl | hx''
                · exact lt_of_le_of_lt (not_lt.mp hc) hblt
                · exact hlt x (List.mem_cons_of_mem _ hx'')

/-- Claim C3: the anchor box chosen for a group's label is the first box of maximum
area in its `boxes` sequence: it is a member, every box's area is at most
its area, every box strictly before it has strictly smaller area, and on
`[(0,0,10,10), (0,0,5,5)]` the anchor is `(0,0,10,10)`. -/
theorem anchor_box_is_first_max_area (b : BBox) (rest : List BBox) :
    (pyMaxBy area b rest ∈ b :: rest)
    ∧ (∀ x ∈ b :: rest, area x ≤ area (pyMaxBy area b rest))
    ∧ (∃ l1 l2, b :: rest = l1 ++ pyMaxBy area b rest :: l2
        ∧ ∀ x ∈ l1, area x < area (pyMaxBy area b rest))
    ∧ pyMaxBy area (0, 0, 10, 10) [(0, 0, 5, 5)] = (0, 0, 10, 10) :=
  ⟨pyMaxBy_mem area b rest, pyMaxBy_le area b rest, pyMaxBy_first area b rest,
    by decide⟩

/-- Claim C4: whenever the left-aligned placement would overflow the image's right
edge (`x_min + text_width > width`), the rendered label's left edge becomes
`width - text_width - 5`, i.e. the label ends 5 pixels from the right edge. -/
theorem label_shifted_to_right_margin (width height : Int) (anchor : BBox)
    (text_width text_height : Int) (h : anchor.1 + text_width > width) :
    (computeTextPos width height anchor text_width text_height).1
      = width - text_width - 5 := by
  obtain ⟨xmin, ymin, xmax, ymax⟩ := anchor
  have h' : xmin + text_width > width := h
  simp only [computeTextPos]
  rw [if_pos h']

/-- Witness for C4 at image width 100, anchor x_min 80, label width 30. -/
theorem label_shifted_to_right_margin_witness :
    ((80 : Int) + 30 > 100)
    ∧ (computeTextPos 100 100 (80, 20, 95, 60) 30 10).1 = 100 - 30 - 5 :=
  ⟨by decide, label_shifted_to_right_margin 100 100 (80, 20, 95, 60) 30 10 (by decide)⟩

/-- Claim C5: for an anchor box with `y_min = 0` (and a non-degenerate box and
non-negative measured text height), the default position is negative, so the
label moves to `y_max + 5`, which is positive — never negative; if that
placement overflows the bottom (`y_max + 5 + text_height > height`), the
final y is clamped to `height - text_height - 5`. -/
theorem label_below_box_when_ymin_zero (width height xmin xmax ymax : Int)
    (text_width text_height : Int)
    (hth : 0 ≤ text_height) (hymax : 0 < ymax) :
    (ymax + 5 + text_height ≤ height →
      (computeTextPos width height (xmin, 0, xmax, ymax) text_width text_height).2
          = ymax + 5
        ∧ 0 < (computeTextPos width height (xmin, 0, xmax, ymax) text_width
            text_height).2)
    ∧ (ymax + 5 + text_height > height →
      (computeTextPos width height (xmin, 0, xmax, ymax) text_width text_height).2
        = height - text_height - 5) := by
  have htop : (0 : Int) - text_height - 5 < 0 := by omega
  constructor
  · intro hfit
    have hnof : ¬ (ymax + 5 + text_height > height) := by omega
    have hnof' : ¬ (ymax + 5 + text_height > height) := hnof
    constructor
    · simp only [computeTextPos]
      rw [if_pos htop, if_neg (by omega : ¬ (ymax + 5 + text_height > height))]
    · simp only [computeTextPos]
      rw [if_pos htop, if_neg (by omega : ¬ (ymax + 5 + text_height > height))]
      omega
  · intro hover
    simp only [computeTextPos]
    rw [if_pos htop, if_pos (by omega : ymax + 5 + text_height > height)]

/-- Witness for C5 at image 100×100, anchor `(10,0,50,60)`, label 30×10:
the label lands at `y = 65 = y_max + 5 > 0`. -/
theorem label_below_box_when_ymin_zero_witness :
    (computeTextPos 100 100 (10, 0, 50, 60) 30 10).2 = 60 + 5
    ∧ 0 < (computeTextPos 100 100 (10, 0, 50, 60) 30 10).2 :=
  (label_below_box_when_ymin_zero 100 100 10 50 60 30 10 (by decide) (by decide)).1
    (by decide)

/-- Claim C6 counterexample: image 100×100, anchor `(10,20,50,60)`, measured label
size 30×10 — no overflow correction applies, yet the rendered origin is
`(10, 5)`: its y is `y_min - text_height - 5 = 5`, not 5 pixels above the
box's top edge (which would be `y = 15`). -/
theorem default_label_origin_counterexample :
    computeTextPos 100 100 (10, 20, 50, 60) 30 10 = (10, 5)
    ∧ computeTextPos 100 100 (10, 20, 50, 60) 30 10 ≠ (10, 20 - 5) := by
  decide

/-- Claim C6 amended: when neither overflow correction triggers, the label origin
is left-aligned at `x_min` and its y is `y_min - text_height - 5` — the
label's *bottom* edge, not its origin, ends 5 pixels above the anchor box's
top edge. -/
theorem default_label_origin (width height : Int) (anchor : BBox)
    (text_width text_height : Int)
    (hx : anchor.1 + text_width ≤ width)
    (hy : 0 ≤ anchor.2.1 - text_height - 5) :
    computeTextPos width height anchor text_width text_height
      = (anchor.1, anchor.2.1 - text_height - 5) := by
  obtain ⟨xmin, ymin, xmax, ymax⟩ := anchor
  have hx' : ¬ (xmin + text_width > width) := not_lt.mpr hx
  have hy' : ¬ (ymin - text_height - 5 < 0) := not_lt.mpr hy
  simp only [computeTextPos]
  rw [if_neg hx', if_neg hy']

/-- Witness for C6 (amended) at image 100×100, anchor `(10,20,50,60)`,
label 30×10. -/
theorem default_label_origin_witness :
    computeTextPos 100 100 (10, 20, 50, 60) 30 10 = ((10 : Int), (5 : Int)) := by
  have h := default_label_origin 100 100 (10, 20, 50, 60) 30 10 (by decide) (by decide)
  simpa using h

/-- Claim C7: the rendered label text is
`"<Capitalized entity_key>: $<price>, In Stock: <Yes|No>"` with the stock
field "Yes" iff the catalog flag is true; end-to-end, for the catalog
`{cat ↦ ($9.99, in stock)}` and a cat plus a dog detection, exactly one
group is built (for "cat") and its label reads exactly
`"Cat: $9.99, In Stock: Yes"`. -/
theorem label_text_format :
    (∀ (key price : String) (b : Bool) (boxes : List BBox),
      groupLabel ⟨key, price, stockStr b, boxes⟩
        = pyCapitalize key ++ ": $" ++ price ++ ", In Stock: "
            ++ (if b then "Yes" else "No"))
    ∧ buildGroups (App.get_product_info [⟨"cat", "9.99", true⟩]
          [⟨"cat", (10, 10, 50, 50), (9 : ℚ)/10⟩,
           ⟨"dog", (60, 60, 80, 80), (4 : ℚ)/5⟩])
        = [⟨"cat", "9.99", "Yes", [(10, 10, 50, 50)]⟩]
    ∧ groupLabel ⟨"cat", "9.99", "Yes", [(10, 10, 50, 50)]⟩
        = "Cat: $9.99, In Stock: Yes" := by
  refine ⟨fun key price b boxes => rfl, by decide, by decide⟩

/-- Claim C8: if the detector adapter reports failure (`perform_object_detection`
returned `None`), `process_image` returns `None` for the whole call: no
output path is produced and neither the matcher's output nor any drawn box
or label appears in the result. -/
theorem detection_failure_aborts_pipeline (colors : Nat → Color)
    (measure : String → Int × Int) (width height : Int)
    (products : List Product) (image_path : String) :
    process_image colors measure width height products none image_path = none :=
  rfl

theorem overlay_strip_eq (c1 c2 : Nat → Color) (measure : String → Int × Int)
    (width height : Int) (image_path : String) (infos : List ProductInfo) :
    stripRender (overlay_product_info c1 measure width height image_path infos)
      = stripRender (overlay_product_info c2 measure width height image_path infos) := by
  simp only [stripRender, overlay_product_info, Prod.mk.injEq]
  refine ⟨?_, ?_, trivial⟩
  · simp [List.map_map]
  · rw [List.map_filterMap, List.map_filterMap]
    apply List.filterMap_congr
    intro g _
    cases hb : g.boxes with
    | nil => rfl
    | cons b rest => rfl

/-- Claim C9: two pipeline runs on the same image, catalog and detector output,
with possibly different colour sources, draw the same box coordinates, the
same label texts at the same positions, and save to the same path; only the
colour components can differ. -/
theorem pipeline_geometry_deterministic (c1 c2 : Nat → Color)
    (measure : String → Int × Int) (width height : Int)
    (products : List Product) (detections : Option (List Detection))
    (image_path : String) :
    (process_image c1 measure width height products detections image_path).map
        stripRender
      = (process_image c2 measure width height products detections
          image_path).map stripRender := by
  cases detections with
  | none => rfl
  | some dets =>
      exact congrArg some
        (overlay_strip_eq c1 c2 measure width height image_path
          (App.get_product_info products dets))

/-! ### Matcher-variant comparison (C10) -/

theorem findLast_eq_find?_of_nodup (ps : List Product) (k : String)
    (hnd : (ps.map (fun p => pyLower p.name)).Nodup) :
    findLast ps k = ps.find? (fun p => pyLower p.name == k) := by
  induction ps with
  | nil => rfl
  | cons p rest ih =>
      have hnc : (∀ q ∈ rest, ¬ pyLower q.name = pyLower p.name)
          ∧ (rest.map (fun p => pyLower p.name)).Nodup := by simpa using hnd
      rw [findLast_cons, ih hnc.2]
      by_cases h : pyLower p.name = k
      · have hr : rest.find? (fun q => pyLower q.name == k) = none := by
          rw [List.find?_eq_none]
          intro q hq hqk
          rw [beq_iff_eq] at hqk
          exact hnc.1 q hq (hqk.trans h.symm)
        rw [hr, List.find?_cons_of_pos _ (by simp [h]), if_pos h]
        rfl
      · rw [List.find?_cons_of_neg _ (by simp [h]), if_neg h]
        exact Option.or_none

theorem dictFind?_isSome_iff_find? (ps : List Product) (k : String) :
    (dictFind? (App.product_lookup ps) k).isSome
      = (ps.find? (fun p => pyLower p.name == k)).isSome := by
  rw [dictFind?_product_lookup, findLast]
  rw [Bool.eq_iff_iff, List.find?_isSome, List.find?_isSome]
  constructor
  · rintro ⟨p, hp, hpred⟩
    exact ⟨p, List.mem_reverse.mp hp, hpred⟩
  · rintro ⟨p, hp, hpred⟩
    exact ⟨p, List.mem_reverse.mpr hp, hpred⟩

/-- Claim C10 counterexample: with the catalog
`[{name "Cat", price 1, in stock}, {name "cat", price 2, not in stock}]`
(two names equal up to case) and one detection `"Cat"`, the two matcher
variants disagree: app.py's dict lookup keeps the *last* case-colliding
entry and stores the lower-cased class name, while test.py's linear scan
keeps the *first* entry and stores the detection's original casing. -/
theorem matcher_variants_differ :
    App.get_product_info
        [⟨"Cat", "1", true⟩, ⟨"cat", "2", false⟩]
        [⟨"Cat", (10, 10, 50, 50), (9 : ℚ)/10⟩]
      ≠ Test.get_product_info
        [⟨"Cat", "1", true⟩, ⟨"cat", "2", false⟩]
        [⟨"Cat", (10, 10, 50, 50), (9 : ℚ)/10⟩]
    ∧ (App.get_product_info
        [⟨"Cat", "1", true⟩, ⟨"cat", "2", false⟩]
        [⟨"Cat", (10, 10, 50, 50), (9 : ℚ)/10⟩]).map ProductInfo.price = ["2"]
    ∧ (Test.get_product_info
        [⟨"Cat", "1", true⟩, ⟨"cat", "2", false⟩]
        [⟨"Cat", (10, 10, 50, 50), (9 : ℚ)/10⟩]).map ProductInfo.price = ["1"]
    ∧ (App.get_product_info
        [⟨"Cat", "1", true⟩, ⟨"cat", "2", false⟩]
        [⟨"Cat", (10, 10, 50, 50), (9 : ℚ)/10⟩]).map ProductInfo.class_name
        = ["cat"]
    ∧ (Test.get_product_info
        [⟨"Cat", "1", true⟩, ⟨"cat", "2", false⟩]
        [⟨"Cat", (10, 10, 50, 50), (9 : ℚ)/10⟩]).map ProductInfo.class_name
        = ["Cat"] := by
  decide

/-- Claim C10 amended: the two matcher variants always agree on the matched
sequence's length, the bboxes, and the class names up to lower-casing
(app.py stores the lower-cased name, test.py the original); and whenever no
two catalog entries have names equal up to case, app.py's output is exactly
test.py's with each entry's class name lower-cased (same price and stock,
entry by entry). -/
theorem get_product_info_variants_agree (ps : List Product)
    (dets : List Detection) :
    (App.get_product_info ps dets).map (fun i => (pyLower i.class_name, i.bbox))
      = (Test.get_product_info ps dets).map
          (fun i => (pyLower i.class_name, i.bbox))
    ∧ ((ps.map (fun p => pyLower p.name)).Nodup →
        App.get_product_info ps dets
          = (Test.get_product_info ps dets).map
              (fun i => { i with class_name := pyLower i.class_name })) := by
  constructor
  · induction dets with
    | nil => rfl
    | cons d rest ih =>
        simp only [App.get_product_info, Test.get_product_info,
          List.filterMap_cons] at ih ⊢
        cases happ : dictFind? (App.product_lookup ps) (pyLower d.class_name) with
        | none =>
            have htest : ps.find? (fun p =>
                pyLower p.name == pyLower d.class_name) = none := by
              rw [← Option.not_isSome_iff_eq_none, ← dictFind?_isSome_iff_find?,
                happ]
              simp
            rw [htest]
            exact ih
        | some p =>
            have hsome : (ps.find? (fun p =>
                pyLower p.name == pyLower d.class_name)).isSome := by
              rw [← dictFind?_isSome_iff_find?, happ]
              rfl
            obtain ⟨q, hq⟩ := Option.isSome_iff_exists.mp hsome
            rw [hq]
            simp only [List.map_cons]
            rw [ih]
            congr 1
            simp [pyLower_idem]
  · intro hnd
    induction dets with
    | nil => rfl
    | cons d rest ih =>
        simp only [App.get_product_info, Test.get_product_info,
          List.filterMap_cons] at ih ⊢
        have hlk : dictFind? (App.product_lookup ps) (pyLower d.class_name)
            = ps.find? (fun p => pyLower p.name == pyLower d.class_name) := by
          rw [dictFind?_product_lookup, findLast_eq_find?_of_nodup _ _ hnd]
        rw [hlk]
        cases hfind : ps.find? (fun p => pyLower p.name == pyLower d.class_name) with
        | none => exact ih
        | some p =>
            simp only [List.map_cons]
            rw [ih]

/-- Witness for C10 (amended): a case-unique catalog, a detection with
upper-case class name; the amended equation holds by computation after
discharging the no-case-duplicates hypothesis. -/
theorem get_product_info_variants_agree_witness :
    App.get_product_info [⟨"cat", "9.99", true⟩]
        [⟨"Cat", (10, 10, 50, 50), (9 : ℚ)/10⟩]
      = (Test.get_product_info [⟨"cat", "9.99", true⟩]
          [⟨"Cat", (10, 10, 50, 50), (9 : ℚ)/10⟩]).map
          (fun i => { i with class_name := pyLower i.class_name }) :=
  (get_product_info_variants_agree [⟨"cat", "9.99", true⟩]
      [⟨"Cat", (10, 10, 50, 50), (9 : ℚ)/10⟩]).2 (by decide)

end ObjDet
